import Mathlib

/-!
# Verification of the crypto-price-tracker core pipeline

Shallow embedding of the normalize → rank → summarize pipeline of the
repository (src/utils/processor.py and src/utils/analyzer.py), together
with proofs of the specification claims about it.

Modelling conventions:
* Python `dict` records become Lean structures; a key that may be absent
  (or `None` — `dict.get` returns `None` in both cases, and both behave
  identically everywhere in this code) becomes an `Option` field.
* Python floats are modelled as exact rationals `ℚ`; every operation the
  code performs on them (comparison, division by a nonzero count) is
  exact, so no rounding behaviour is involved in any claim.
* Python's `list.sort` / `sorted` are stable sorts with respect to a key
  function; they are modelled by `List.insertionSort` (Mathlib), which is
  stable and agrees with every stable sort for a total preorder.
* In-place dict mutation (`coin['number'] = i`, `coin['gainer_rank'] = i`)
  is modelled by functional record update; where aliasing matters (the
  ranker mutates dicts that the normalized list also references) the
  post-state of the shared list is modelled explicitly by position.
-/

/-- A loosely-typed JSON-ish value as found in the
`price_change_percentage_24h` field of a raw API record: a number or a
string.  (`None` / absent key is modelled by `Option` around this type.) -/
inductive PyValue where
  | num (q : ℚ)
  | str (s : String)
deriving DecidableEq, Repr

/-- Python truthiness for such a value: `0` and `""` are falsy. -/
def PyValue.truthy : PyValue → Bool
  | .num q => q != 0
  | .str s => s != ""

/-- Value of a list of decimal digit characters read as a natural number
(most significant first). -/
def digitsVal (cs : List Char) : ℕ :=
  cs.foldl (fun n c => 10 * n + (c.toNat - 48)) 0

/-- Strip leading and trailing whitespace from a character list (the
whitespace stripping Python `float` performs on its string argument). -/
def trimChars (cs : List Char) : List Char :=
  (((cs.dropWhile Char.isWhitespace).reverse).dropWhile
    Char.isWhitespace).reverse

/-- Model of Python `float(s)` on a string: leading/trailing whitespace is
stripped, then an optional sign followed by a plain decimal literal
(`digits`, `digits.digits`, `digits.`, `.digits`) is accepted; anything
else raises `ValueError`, modelled as `none`.  (Python also accepts
exponent notation and `inf`/`nan`; those spellings never matter for any
claim and are modelled as unparseable.) -/
def parseFloat (s : String) : Option ℚ :=
  let cs := trimChars s.data
  let (sign, cs) : ℚ × List Char :=
    match cs with
    | '-' :: rest => (-1, rest)
    | '+' :: rest => (1, rest)
    | _ => (1, cs)
  let intPart := cs.takeWhile Char.isDigit
  let rest := cs.dropWhile Char.isDigit
  match rest with
  | [] =>
    if intPart.isEmpty then none
    else some (sign * (digitsVal intPart : ℚ))
  | '.' :: frac =>
    if frac.all Char.isDigit && !(intPart.isEmpty && frac.isEmpty) then
      some (sign * ((digitsVal intPart : ℚ) +
        (digitsVal frac : ℚ) / ((10 : ℚ) ^ frac.length)))
    else none
  | _ => none

/-- Python `float(v)` on the value of the percentage field: numbers coerce
to themselves, strings are parsed (or raise `ValueError`, modelled as
`none`). -/
def PyValue.toFloat : PyValue → Option ℚ
  | .num q => some q
  | .str s => parseFloat s

/-- A raw market record as supplied to the pipeline (the fields read by
`add_enhanced_columns` and `process_crypto_data`).  Every field may be
absent or null, which `dict.get` reports identically as `None`. -/
structure RawRecord where
  id : Option String := none
  name : Option String := none
  symbol : Option String := none
  market_cap_rank : Option ℤ := none
  current_price : Option ℚ := none
  price_change_percentage_24h : Option PyValue := none
  market_cap : Option ℚ := none
  total_volume : Option ℚ := none
  ath : Option ℚ := none
  image : Option String := none
  last_updated : Option String := none
deriving DecidableEq, Repr

/-- A record after `add_enhanced_columns`: the raw record with the three
keys `date`, `price_change_24h`, `change_symbol` written into the same
dict.  The fields are `Option`s because the normalizer reads them with
`dict.get` defaults; the enhancer always sets all three. -/
structure EnhancedRecord extends RawRecord where
  date : Option String := none
  price_change_24h : Option ℚ := none
  change_symbol : Option String := none
deriving DecidableEq, Repr

/-- The derivation of `price_change_24h` for one record, line 11 of
src/utils/processor.py:
`float(price_change) if price_change else 0.0`.
A truthy but unparseable value makes `float` raise a `ValueError`; the
error is modelled as `Except.error` carrying exactly what the Python
exception carries — the offending string, with no record identifier
(there is no `DataFormatError` type anywhere in the code). -/
def enhancePC : Option PyValue → Except String ℚ
  | none => .ok 0
  | some v =>
    if v.truthy then
      match v.toFloat with
      | some q => .ok q
      | none => .error (match v with | .num _ => "" | .str s => s)
    else .ok 0

/-- `add_enhanced_columns` from src/utils/processor.py.  The capture date
(`datetime.now().strftime('%d-%m-%Y')`) is an external input and is
passed in as `today`.  The Python function mutates the records in place
and returns the same list; an unhandled `ValueError` aborts the whole
call, modelled by `Except.error` (no output list is produced). -/
def add_enhanced_columns (today : String) :
    List RawRecord → Except String (List EnhancedRecord)
  | [] => .ok []
  | coin :: rest => do
    let pc ← enhancePC coin.price_change_percentage_24h
    let tail ← add_enhanced_columns today rest
    .ok ({ toRawRecord := coin
           date := some today
           price_change_24h := some pc
           change_symbol := some (if pc > 0 then "UP" else "DOWN") } :: tail)

/-- The fixed-shape record built by `process_crypto_data`
(src/utils/processor.py lines 18–32).  The dict has no `number`,
`gainer_rank` or `loser_rank` key when first built: `number` is written
for every record right after sorting (default `0` stands for "key not
yet written"), and the two rank keys are only ever written by the ranker
(`Option`, `none` = key absent). -/
structure NormalizedRecord where
  id : String
  rank : Option ℤ
  name : String
  symbol : String
  current_price : Option ℚ
  price_change_24h : ℚ
  change_symbol : String
  market_cap : Option ℚ
  volume_24h : Option ℚ
  ath : Option ℚ
  image : String
  date : String
  last_updated : String
  number : ℕ := 0
  gainer_rank : Option ℕ := none
  loser_rank : Option ℕ := none
deriving DecidableEq, Repr

/-- Python `str.upper()` modelled character by character with
`Char.toUpper` (basic-latin uppercasing). -/
def pyUpper (s : String) : String :=
  ⟨s.data.map Char.toUpper⟩

/-- The projection of one enhanced record into the fixed shape, i.e. the
dict literal of src/utils/processor.py lines 18–32 with its
`coin.get(..., default)` fallbacks. -/
def projectRecord (coin : EnhancedRecord) : NormalizedRecord where
  id := coin.id.getD ""
  rank := coin.market_cap_rank
  name := coin.name.getD ""
  symbol := pyUpper (coin.symbol.getD "")
  current_price := coin.current_price
  price_change_24h := coin.price_change_24h.getD 0
  change_symbol := coin.change_symbol.getD "DOWN"
  market_cap := coin.market_cap
  volume_24h := coin.total_volume
  ath := coin.ath
  image := coin.image.getD ""
  date := coin.date.getD ""
  last_updated := coin.last_updated.getD ""

/-- The sort key of line 33 of src/utils/processor.py,
`lambda x: x['rank'] if x['rank'] else float('inf')`: any falsy rank —
`None` or `0` — is replaced by positive infinity, modelled as `⊤` in
`WithTop ℤ`. -/
def rankKey (x : NormalizedRecord) : WithTop ℤ :=
  match x.rank with
  | none => ⊤
  | some v => if v = 0 then ⊤ else (v : WithTop ℤ)

/-- The total preorder induced on records by a key function; Python's
`sort(key=f)` sorts by exactly this relation. -/
def keyRel {α γ : Type} (key : α → γ) [LinearOrder γ] (a b : α) : Prop :=
  key a ≤ key b

instance {α γ : Type} (key : α → γ) [LinearOrder γ] :
    DecidableRel (keyRel key) :=
  fun a b => inferInstanceAs (Decidable (key a ≤ key b))

instance {α γ : Type} (key : α → γ) [LinearOrder γ] :
    IsTotal α (keyRel key) :=
  ⟨fun a b => le_total (key a) (key b)⟩

instance {α γ : Type} (key : α → γ) [LinearOrder γ] :
    IsTrans α (keyRel key) :=
  ⟨fun _ _ _ hab hbc => le_trans hab hbc⟩

/-- Python's stable sort (`list.sort(key=...)` / `sorted(key=...)`),
modelled by insertion sort: for a total preorder every stable sort
computes the same list, and `List.insertionSort` is stable. -/
def sortByKey {α γ : Type} (key : α → γ) [LinearOrder γ] (l : List α) :
    List α :=
  l.insertionSort (keyRel key)

/-- The `for i, coin in enumerate(processed, 1): coin['number'] = i` loop
of src/utils/processor.py lines 34–35, writing consecutive numbers
starting at `n`. -/
def assignNumbers : ℕ → List NormalizedRecord → List NormalizedRecord
  | _, [] => []
  | n, c :: rest => { c with number := n } :: assignNumbers (n + 1) rest

/-- `process_crypto_data` from src/utils/processor.py: project every
record, stable-sort by the falsy-rank-last key, then number the records
1, 2, 3, … -/
def process_crypto_data (data : List EnhancedRecord) :
    List NormalizedRecord :=
  assignNumbers 1 (sortByKey rankKey (data.map projectRecord))

/-- Descending sort key for gainers: `sorted(..., reverse=True)` on the
`price_change_24h` key is the stable sort by the order-dual of `ℚ`. -/
def gainKey (x : NormalizedRecord) : ℚᵒᵈ :=
  OrderDual.toDual x.price_change_24h

/-- Ascending sort key for losers. -/
def loseKey (x : NormalizedRecord) : ℚ :=
  x.price_change_24h

/-- The `coin['gainer_rank'] = i` loop of src/utils/analyzer.py
lines 7–8, writing consecutive ranks starting at `n`. -/
def assignGainerRanks : ℕ → List NormalizedRecord → List NormalizedRecord
  | _, [] => []
  | n, c :: rest =>
    { c with gainer_rank := some n } :: assignGainerRanks (n + 1) rest

/-- The `coin['loser_rank'] = i` loop of src/utils/analyzer.py
lines 14–15. -/
def assignLoserRanks : ℕ → List NormalizedRecord → List NormalizedRecord
  | _, [] => []
  | n, c :: rest =>
    { c with loser_rank := some n } :: assignLoserRanks (n + 1) rest

/-- `get_top_gainers` from src/utils/analyzer.py: filter the records with
positive 24h change, stable-sort them descending, truncate to `limit`,
and write `gainer_rank` 1, 2, … into the selected dicts.  This is the
list the function returns. -/
def get_top_gainers (data : List NormalizedRecord) (limit : ℕ := 10) :
    List NormalizedRecord :=
  assignGainerRanks 1
    ((sortByKey gainKey
      (data.filter (fun c => 0 < c.price_change_24h))).take limit)

/-- `get_top_losers` from src/utils/analyzer.py: filter the records with
negative 24h change, stable-sort them ascending, truncate to `limit`,
and write `loser_rank` 1, 2, … into the selected dicts. -/
def get_top_losers (data : List NormalizedRecord) (limit : ℕ := 10) :
    List NormalizedRecord :=
  assignLoserRanks 1
    ((sortByKey loseKey
      (data.filter (fun c => c.price_change_24h < 0))).take limit)

/-- The selection made by `get_top_gainers`, tracked by position in
`data` so that the in-place mutation of the shared dicts can be stated:
the `j`-th pair `(i, r)` means the dict at position `i` of `data` is the
`j`-th returned gainer. -/
def gainersSelection (data : List NormalizedRecord) (limit : ℕ) :
    List (ℕ × NormalizedRecord) :=
  (sortByKey (fun p : ℕ × NormalizedRecord => gainKey p.2)
    (data.enum.filter (fun p => 0 < p.2.price_change_24h))).take limit

/-- The selection made by `get_top_losers`, tracked by position. -/
def losersSelection (data : List NormalizedRecord) (limit : ℕ) :
    List (ℕ × NormalizedRecord) :=
  (sortByKey (fun p : ℕ × NormalizedRecord => loseKey p.2)
    (data.enum.filter (fun p => p.2.price_change_24h < 0))).take limit

/-- Post-state of the `data` list after `get_top_gainers(data, limit)`
returns: the returned list holds the *same dict objects* as `data`, so
the selected dicts now carry a `gainer_rank` key inside `data` as well;
every other dict is untouched. -/
def dataAfterGainers (data : List NormalizedRecord) (limit : ℕ) :
    List NormalizedRecord :=
  data.enum.map fun p =>
    match (gainersSelection data limit).findIdx? (fun q => q.1 == p.1) with
    | some j => { p.2 with gainer_rank := some (j + 1) }
    | none => p.2

/-- Post-state of the `data` list after `get_top_losers(data, limit)`. -/
def dataAfterLosers (data : List NormalizedRecord) (limit : ℕ) :
    List NormalizedRecord :=
  data.enum.map fun p =>
    match (losersSelection data limit).findIdx? (fun q => q.1 == p.1) with
    | some j => { p.2 with loser_rank := some (j + 1) }
    | none => p.2

/-- The summary dict built by `generate_market_summary`
(src/utils/analyzer.py lines 26–35). -/
structure MarketSummary where
  total_coins : ℕ
  gainers_count : ℕ
  losers_count : ℕ
  neutral_count : ℕ
  gainers_percentage : ℚ
  losers_percentage : ℚ
  top_gainer : NormalizedRecord
  top_loser : NormalizedRecord
deriving DecidableEq, Repr

/-- Python `max(xs, key=f)` on the nonempty list `h :: t`: a linear scan
that replaces the current best only on a strictly greater key, so the
first-seen maximum wins. -/
def pyMaxBy (f : NormalizedRecord → ℚ) (h : NormalizedRecord)
    (t : List NormalizedRecord) : NormalizedRecord :=
  t.foldl (fun acc x => if f x > f acc then x else acc) h

/-- Python `min(xs, key=f)`: first-seen minimum wins. -/
def pyMinBy (f : NormalizedRecord → ℚ) (h : NormalizedRecord)
    (t : List NormalizedRecord) : NormalizedRecord :=
  t.foldl (fun acc x => if f x < f acc then x else acc) h

/-- `generate_market_summary` from src/utils/analyzer.py.  Python returns
the empty dict `{}` for empty input (line 19), modelled as `none`; for
nonempty input all eight keys are present, modelled as `some` of a full
`MarketSummary`. -/
def generate_market_summary :
    List NormalizedRecord → Option MarketSummary
  | [] => none
  | h :: t =>
    let data := h :: t
    let total := data.length
    let gainers := data.filter (fun c => 0 < c.price_change_24h)
    let losers := data.filter (fun c => c.price_change_24h < 0)
    let neutral := data.filter (fun c => c.price_change_24h = 0)
    some
      { total_coins := total
        gainers_count := gainers.length
        losers_count := losers.length
        neutral_count := neutral.length
        gainers_percentage := (gainers.length : ℚ) / (total : ℚ) * 100
        losers_percentage := (losers.length : ℚ) / (total : ℚ) * 100
        top_gainer := pyMaxBy (fun x => x.price_change_24h) h t
        top_loser := pyMinBy (fun x => x.price_change_24h) h t }

/-! ## Generic lemmas about the stable sort -/

theorem filter_orderedInsert_of_key_eq {α γ : Type} [LinearOrder γ]
    (key : α → γ) (k : γ) (p : α → Bool)
    (hp : ∀ a, p a = true ↔ key a = k)
    (x : α) (l : List α) (hx : key x = k) :
    (List.orderedInsert (keyRel key) x l).filter p = x :: l.filter p := by
  induction l with
  | nil => simp [(hp x).mpr hx]
  | cons y ys ih =>
    by_cases h : keyRel key x y
    · rw [List.orderedInsert, if_pos h]
      simp [(hp x).mpr hx]
    · rw [List.orderedInsert, if_neg h]
      have hylt : key y < key x := lt_of_not_le h
      have hy : p y = false := by
        rw [Bool.eq_false_iff]
        intro hk
        exact absurd (hx ▸ (hp y).mp hk : key y = key x) (ne_of_lt hylt)
      simp only [List.filter, hy]
      exact ih

theorem filter_orderedInsert_of_key_ne {α γ : Type} [LinearOrder γ]
    (key : α → γ) (k : γ) (p : α → Bool)
    (hp : ∀ a, p a = true ↔ key a = k)
    (x : α) (l : List α) (hx : key x ≠ k) :
    (List.orderedInsert (keyRel key) x l).filter p = l.filter p := by
  have hxp : p x = false := by
    rw [Bool.eq_false_iff]
    exact fun hk => hx ((hp x).mp hk)
  induction l with
  | nil => simp [hxp]
  | cons y ys ih =>
    by_cases h : keyRel key x y
    · rw [List.orderedInsert, if_pos h]
      simp [hxp]
    · rw [List.orderedInsert, if_neg h]
      simp only [List.filter]
      cases hy : p y <;> simp [ih]

/-- Stability of the sort, in filter form: for every key value `k` (and
any predicate recognising exactly the elements with key `k`) the
records with that key come out of the sort exactly as they went in. -/
theorem filter_sortByKey {α γ : Type} [LinearOrder γ]
    (key : α → γ) (k : γ) (p : α → Bool)
    (hp : ∀ a, p a = true ↔ key a = k) (l : List α) :
    (sortByKey key l).filter p = l.filter p := by
  induction l with
  | nil => rfl
  | cons x xs ih =>
    simp only [sortByKey] at ih ⊢
    show (List.orderedInsert (keyRel key) x
      (List.insertionSort (keyRel key) xs)).filter _ = _
    by_cases hx : key x = k
    · rw [filter_orderedInsert_of_key_eq key k p hp x _ hx]
      simp only [List.filter]
      rw [ih]
      rw [show p x = true from (hp x).mpr hx]
    · rw [filter_orderedInsert_of_key_ne key k p hp x _ hx]
      simp only [List.filter]
      rw [show p x = false from by
        rw [Bool.eq_false_iff]; exact fun hk => hx ((hp x).mp hk)]
      exact ih

/-- The sort output is sorted with respect to the key. -/
theorem sortByKey_sorted {α γ : Type} [LinearOrder γ]
    (key : α → γ) (l : List α) :
    (sortByKey key l).Sorted (keyRel key) :=
  List.sorted_insertionSort (keyRel key) l

theorem sortByKey_length {α γ : Type} [LinearOrder γ]
    (key : α → γ) (l : List α) :
    (sortByKey key l).length = l.length :=
  List.length_insertionSort (keyRel key) l

theorem mem_sortByKey {α γ : Type} [LinearOrder γ]
    (key : α → γ) (l : List α) (x : α) :
    x ∈ sortByKey key l ↔ x ∈ l :=
  List.mem_insertionSort (keyRel key)

/-- A filter of a truncation is a truncation of the filter. -/
theorem filter_take {α : Type} (p : α → Bool) :
    ∀ (L : ℕ) (l : List α),
      ∃ k, (l.take L).filter p = (l.filter p).take k := by
  intro L l
  induction l generalizing L with
  | nil => exact ⟨0, by simp⟩
  | cons x xs ih =>
    cases L with
    | zero => exact ⟨0, by simp⟩
    | succ n =>
      obtain ⟨k, hk⟩ := ih n
      by_cases hx : p x
      · exact ⟨k + 1, by simp [hx, hk]⟩
      · exact ⟨k, by simp [hx, hk]⟩

/-! ## Record projections and assignment loops -/

/-- Forget the `number` key (set it back to the "not yet written"
default), for comparing records before and after numbering. -/
def stripNumber (c : NormalizedRecord) : NormalizedRecord :=
  { c with number := 0 }

/-- Forget the `gainer_rank` key. -/
def stripGainerRank (c : NormalizedRecord) : NormalizedRecord :=
  { c with gainer_rank := none }

/-- Forget the `loser_rank` key. -/
def stripLoserRank (c : NormalizedRecord) : NormalizedRecord :=
  { c with loser_rank := none }

theorem stripNumber_eq_self {c : NormalizedRecord} (h : c.number = 0) :
    stripNumber c = c := by
  cases c
  simp only [stripNumber] at *
  simp [h]

theorem assignNumbers_length (n : ℕ) (l : List NormalizedRecord) :
    (assignNumbers n l).length = l.length := by
  induction l generalizing n with
  | nil => rfl
  | cons c rest ih => simp [assignNumbers, ih]

theorem assignNumbers_get (n : ℕ) (l : List NormalizedRecord) (i : ℕ)
    (h : i < (assignNumbers n l).length) :
    ((assignNumbers n l).get ⟨i, h⟩).number = n + i := by
  induction l generalizing n i with
  | nil => simp [assignNumbers] at h
  | cons c rest ih =>
    cases i with
    | zero => rfl
    | succ j =>
      have h' : j < (assignNumbers (n + 1) rest).length := by
        simpa [assignNumbers] using h
      have := ih (n + 1) j h'
      simp only [assignNumbers, List.get]
      rw [this]
      omega

theorem map_stripNumber_assignNumbers (n : ℕ)
    (l : List NormalizedRecord) :
    (assignNumbers n l).map stripNumber = l.map stripNumber := by
  induction l generalizing n with
  | nil => rfl
  | cons c rest ih =>
    simp only [assignNumbers, List.map, ih]
    rfl

theorem assignNumbers_map_stripNumber (n : ℕ)
    (l : List NormalizedRecord) :
    assignNumbers n (l.map stripNumber) = assignNumbers n l := by
  induction l generalizing n with
  | nil => rfl
  | cons c rest ih =>
    simp only [List.map, assignNumbers, ih]
    rfl

theorem assignNumbers_map_rankKey (n : ℕ) (l : List NormalizedRecord) :
    (assignNumbers n l).map rankKey = l.map rankKey := by
  induction l generalizing n with
  | nil => rfl
  | cons c rest ih =>
    simp only [assignNumbers, List.map, ih]
    rfl

theorem assignGainerRanks_length (n : ℕ) (l : List NormalizedRecord) :
    (assignGainerRanks n l).length = l.length := by
  induction l generalizing n with
  | nil => rfl
  | cons c rest ih => simp [assignGainerRanks, ih]

theorem assignGainerRanks_get (n : ℕ) (l : List NormalizedRecord) (i : ℕ)
    (h : i < (assignGainerRanks n l).length) :
    ((assignGainerRanks n l).get ⟨i, h⟩).gainer_rank = some (n + i) := by
  induction l generalizing n i with
  | nil => simp [assignGainerRanks] at h
  | cons c rest ih =>
    cases i with
    | zero => rfl
    | succ j =>
      have h' : j < (assignGainerRanks (n + 1) rest).length := by
        simpa [assignGainerRanks] using h
      have := ih (n + 1) j h'
      simp only [assignGainerRanks, List.get]
      rw [this]
      congr 1
      omega

theorem assignLoserRanks_length (n : ℕ) (l : List NormalizedRecord) :
    (assignLoserRanks n l).length = l.length := by
  induction l generalizing n with
  | nil => rfl
  | cons c rest ih => simp [assignLoserRanks, ih]

theorem assignLoserRanks_get (n : ℕ) (l : List NormalizedRecord) (i : ℕ)
    (h : i < (assignLoserRanks n l).length) :
    ((assignLoserRanks n l).get ⟨i, h⟩).loser_rank = some (n + i) := by
  induction l generalizing n i with
  | nil => simp [assignLoserRanks] at h
  | cons c rest ih =>
    cases i with
    | zero => rfl
    | succ j =>
      have h' : j < (assignLoserRanks (n + 1) rest).length := by
        simpa [assignLoserRanks] using h
      have := ih (n + 1) j h'
      simp only [assignLoserRanks, List.get]
      rw [this]
      congr 1
      omega

theorem map_stripGainerRank_assignGainerRanks (n : ℕ)
    (l : List NormalizedRecord) :
    (assignGainerRanks n l).map stripGainerRank = l.map stripGainerRank := by
  induction l generalizing n with
  | nil => rfl
  | cons c rest ih =>
    simp only [assignGainerRanks, List.map, ih]
    rfl

theorem map_stripLoserRank_assignLoserRanks (n : ℕ)
    (l : List NormalizedRecord) :
    (assignLoserRanks n l).map stripLoserRank = l.map stripLoserRank := by
  induction l generalizing n with
  | nil => rfl
  | cons c rest ih =>
    simp only [assignLoserRanks, List.map, ih]
    rfl

theorem map_pc_assignGainerRanks (n : ℕ) (l : List NormalizedRecord) :
    (assignGainerRanks n l).map (fun c => c.price_change_24h)
      = l.map (fun c => c.price_change_24h) := by
  induction l generalizing n with
  | nil => rfl
  | cons c rest ih =>
    simp only [assignGainerRanks, List.map, ih]

theorem map_pc_assignLoserRanks (n : ℕ) (l : List NormalizedRecord) :
    (assignLoserRanks n l).map (fun c => c.price_change_24h)
      = l.map (fun c => c.price_change_24h) := by
  induction l generalizing n with
  | nil => rfl
  | cons c rest ih =>
    simp only [assignLoserRanks, List.map, ih]

theorem map_id_of_mem {α : Type} (f : α → α) :
    ∀ (l : List α), (∀ x ∈ l, f x = x) → l.map f = l
  | [], _ => rfl
  | x :: xs, h => by
    simp only [List.map]
    rw [h x (List.mem_cons_self x xs),
      map_id_of_mem f xs (fun y hy => h y (List.mem_cons_of_mem x hy))]

theorem assignNumbers_map_number (n : ℕ) (l : List NormalizedRecord) :
    (assignNumbers n l).map (fun c => c.number) = List.range' n l.length := by
  induction l generalizing n with
  | nil => rfl
  | cons c rest ih =>
    simp only [assignNumbers, List.map, List.length_cons, List.range']
    rw [ih]

/-- Numbering happens after sorting, so forgetting `number` recovers the
bare sorted projection. -/
theorem process_strip_eq (data : List EnhancedRecord) :
    (process_crypto_data data).map stripNumber
      = sortByKey rankKey (data.map projectRecord) := by
  unfold process_crypto_data
  rw [map_stripNumber_assignNumbers]
  refine map_id_of_mem stripNumber _ (fun x hx => ?_)
  rw [mem_sortByKey] at hx
  obtain ⟨e, _, rfl⟩ := List.mem_map.mp hx
  exact stripNumber_eq_self rfl

theorem process_rankKeys_sorted (data : List EnhancedRecord) :
    ((process_crypto_data data).map rankKey).Sorted (· ≤ ·) := by
  unfold process_crypto_data
  rw [assignNumbers_map_rankKey]
  exact (List.pairwise_map).mpr (sortByKey_sorted rankKey (data.map projectRecord))

/-! ## C1 — Normalizer ordering, stability, numbering -/

/-- The sort key as the specification words it: ascending by `rank` with
only *null* ranks treated as positive infinity.  (The code's key,
`rankKey`, additionally sends a rank of `0` to infinity.) -/
def specRankKey (r : Option ℤ) : WithTop ℤ :=
  match r with
  | none => ⊤
  | some v => (v : WithTop ℤ)

/-- An enhanced record that only carries a market-cap rank. -/
def enhWithRank (r : Option ℤ) : EnhancedRecord :=
  { market_cap_rank := r }

/-- C1 fails as stated: on the input with ranks `[0, 1]` the normalizer
outputs the rank sequence `[1, 0]`, which is not sorted ascending by
`rank` with only null ranks last — the record with rank `0` was moved
behind rank `1` because the code keys every *falsy* rank (null or zero)
as infinity. -/
theorem normalizer_claim_counterexample :
    ¬ (((process_crypto_data [enhWithRank (some 0), enhWithRank (some 1)]).map
        (fun c => specRankKey c.rank)).Sorted (· ≤ ·)) := by
  decide

/-- C1 (amended): for every input, the normalizer output is sorted
ascending by rank with *falsy* ranks (null or `0`) ordered last (the
key `rankKey` maps exactly those to `⊤`); the sort is stable and keeps
exactly the input records (for each key value, the records with that key
come out in input order — forgetting only the `number` key written after
sorting); and the `number` column is `1, 2, …, length` in order. -/
theorem normalizer_sorted_stable_numbered (data : List EnhancedRecord) :
    ((process_crypto_data data).map rankKey).Sorted (· ≤ ·)
    ∧ (∀ k : WithTop ℤ,
        ((process_crypto_data data).map stripNumber).filter
            (fun c => rankKey c == k)
          = (data.map projectRecord).filter (fun c => rankKey c == k))
    ∧ (process_crypto_data data).map (fun c => c.number)
        = List.range' 1 data.length := by
  refine ⟨process_rankKeys_sorted data, fun k => ?_, ?_⟩
  · rw [process_strip_eq,
      filter_sortByKey rankKey k (fun c => rankKey c == k)
        (fun a => by simp)]
  · unfold process_crypto_data
    rw [assignNumbers_map_number, sortByKey_length, List.length_map]

/-! ## C10 — a rank of 0 is keyed like a null rank -/

/-- Forget the `rank` field, for comparing outputs that differ only in
the stored rank value. -/
def eraseRank (c : NormalizedRecord) : NormalizedRecord :=
  { c with rank := none }

/-- Replace a rank of exactly `0` by null, leaving everything else. -/
def zeroRankToNone (c : EnhancedRecord) : EnhancedRecord :=
  if c.market_cap_rank = some 0 then { c with market_cap_rank := none }
  else c

/-- Records equal except possibly in the stored `rank`, with the same
sort key. -/
def RankAgnostic (a b : NormalizedRecord) : Prop :=
  eraseRank a = eraseRank b ∧ rankKey a = rankKey b

theorem orderedInsert_rankAgnostic {x y : NormalizedRecord}
    {l₁ l₂ : List NormalizedRecord}
    (hxy : RankAgnostic x y) (h : List.Forall₂ RankAgnostic l₁ l₂) :
    List.Forall₂ RankAgnostic
      (List.orderedInsert (keyRel rankKey) x l₁)
      (List.orderedInsert (keyRel rankKey) y l₂) := by
  induction h with
  | nil => exact List.Forall₂.cons hxy List.Forall₂.nil
  | @cons a b la lb hab htail ih =>
    by_cases hc : keyRel rankKey x a
    · have hc' : keyRel rankKey y b := by
        unfold keyRel at *
        rw [← hxy.2, ← hab.2]
        exact hc
      rw [List.orderedInsert, if_pos hc, List.orderedInsert, if_pos hc']
      exact List.Forall₂.cons hxy (List.Forall₂.cons hab htail)
    · have hc' : ¬ keyRel rankKey y b := by
        unfold keyRel at *
        rw [← hxy.2, ← hab.2]
        exact hc
      rw [List.orderedInsert, if_neg hc, List.orderedInsert, if_neg hc']
      exact List.Forall₂.cons hab ih

theorem sortByKey_rankAgnostic {l₁ l₂ : List NormalizedRecord}
    (h : List.Forall₂ RankAgnostic l₁ l₂) :
    List.Forall₂ RankAgnostic (sortByKey rankKey l₁)
      (sortByKey rankKey l₂) := by
  induction h with
  | nil => exact List.Forall₂.nil
  | @cons a b la lb hab htail ih =>
    exact orderedInsert_rankAgnostic hab ih

theorem eraseRank_setNumber (a : NormalizedRecord) (n : ℕ) :
    eraseRank { a with number := n } = { eraseRank a with number := n } :=
  rfl

theorem assignNumbers_rankAgnostic :
    ∀ {l₁ l₂ : List NormalizedRecord},
      List.Forall₂ RankAgnostic l₁ l₂ → ∀ n,
      (assignNumbers n l₁).map eraseRank
        = (assignNumbers n l₂).map eraseRank := by
  intro l₁ l₂ h
  induction h with
  | nil => intro n; rfl
  | @cons a b la lb hab htail ih =>
    intro n
    simp only [assignNumbers, List.map]
    congr 1
    · have h1 := hab.1
      cases a
      cases b
      simp only [eraseRank, NormalizedRecord.mk.injEq] at h1 ⊢
      tauto
    · exact ih (n + 1)

theorem proj_zeroRank_rankAgnostic (data : List EnhancedRecord) :
    List.Forall₂ RankAgnostic (data.map projectRecord)
      ((data.map zeroRankToNone).map projectRecord) := by
  induction data with
  | nil => exact List.Forall₂.nil
  | cons c rest ih =>
    refine List.Forall₂.cons ?_ ih
    by_cases h : c.market_cap_rank = some 0
    · constructor
      · simp [zeroRankToNone, h, eraseRank, projectRecord]
      · simp [zeroRankToNone, h, rankKey, projectRecord]
    · simp [zeroRankToNone, h, RankAgnostic]

theorem map_eraseRank_of_rankAgnostic :
    ∀ {l₁ l₂ : List NormalizedRecord},
      List.Forall₂ RankAgnostic l₁ l₂ →
      l₁.map eraseRank = l₂.map eraseRank := by
  intro l₁ l₂ h
  induction h with
  | nil => rfl
  | @cons a b la lb hab htail ih =>
    simp only [List.map]
    rw [hab.1, ih]

/-- C10: a record whose `market_cap_rank` is present and equal to `0` is
keyed as positive infinity, exactly like a null rank: the output is
sorted by `rankKey` (which sends every falsy rank to `⊤`, so such
records land in the nulls-last region after every record with a nonzero
rank), and the whole output — field for field, except for the stored
rank value itself — is identical to what the normalizer produces when
every rank-0 input is replaced by a null rank. -/
theorem zero_rank_ordered_as_null (data : List EnhancedRecord) :
    ((process_crypto_data data).map rankKey).Sorted (· ≤ ·)
    ∧ (process_crypto_data data).map eraseRank
        = (process_crypto_data (data.map zeroRankToNone)).map eraseRank := by
  refine ⟨process_rankKeys_sorted data, ?_⟩
  unfold process_crypto_data
  exact assignNumbers_rankAgnostic
    (sortByKey_rankAgnostic (proj_zeroRank_rankAgnostic data)) 1

/-! ## C2 — Enhancer change fields -/

theorem parseFloat_empty : parseFloat "" = none := by decide

/-- Whenever `float()` would succeed on the raw value, the enhancer
stores exactly the coerced number (a falsy `0` value also coerces
to `0`). -/
theorem enhancePC_toFloat {v : PyValue} {q : ℚ} (h : v.toFloat = some q) :
    enhancePC (some v) = .ok q := by
  cases v with
  | num p =>
    have hpq : p = q := by simpa [PyValue.toFloat] using h
    subst hpq
    by_cases hp : p = 0
    · simp [enhancePC, PyValue.truthy, hp]
    · simp [enhancePC, PyValue.truthy, hp, PyValue.toFloat]
  | str s =>
    by_cases hs : s = ""
    · subst hs
      rw [show PyValue.toFloat (.str "") = none from parseFloat_empty] at h
      exact absurd h (by simp)
    · simp only [enhancePC, PyValue.truthy]
      rw [if_pos (by simpa using hs), h]

/-- C2: for every record of a successfully enhanced batch, a null or
absent percentage field yields `price_change_24h = 0.0` and
`change_symbol = "DOWN"`; a present field whose value coerces to a
float `q` yields `price_change_24h = q`; and the stored symbol is
`"UP"` exactly when the stored change is positive (zero gives
`"DOWN"`). -/
theorem enhancer_change_fields (today : String) :
    ∀ (data : List RawRecord) (out : List EnhancedRecord),
      add_enhanced_columns today data = .ok out →
      out.length = data.length ∧
      ∀ (i : ℕ) (hi : i < data.length) (ho : i < out.length),
        ((data.get ⟨i, hi⟩).price_change_percentage_24h = none →
            (out.get ⟨i, ho⟩).price_change_24h = some 0
            ∧ (out.get ⟨i, ho⟩).change_symbol = some "DOWN")
        ∧ (∀ (v : PyValue) (q : ℚ),
            (data.get ⟨i, hi⟩).price_change_percentage_24h = some v →
            v.toFloat = some q →
            (out.get ⟨i, ho⟩).price_change_24h = some q)
        ∧ (∀ q : ℚ, (out.get ⟨i, ho⟩).price_change_24h = some q →
            ((out.get ⟨i, ho⟩).change_symbol = some "UP" ↔ 0 < q)) := by
  intro data
  induction data with
  | nil =>
    intro out h
    injection h with h2
    subst h2
    exact ⟨rfl, fun i hi => absurd hi (by simp)⟩
  | cons c rest ih =>
    intro out h
    simp only [add_enhanced_columns, bind, Except.bind] at h
    cases hpc : enhancePC c.price_change_percentage_24h with
    | error e => rw [hpc] at h; exact absurd h (by simp)
    | ok pc =>
      rw [hpc] at h
      cases htl : add_enhanced_columns today rest with
      | error e => rw [htl] at h; exact absurd h (by simp)
      | ok tail =>
        rw [htl] at h
        injection h with h2
        subst h2
        obtain ⟨hlen, hfields⟩ := ih tail htl
        refine ⟨by simp [hlen], ?_⟩
        intro i hi ho
        cases i with
        | succ j =>
          exact hfields j (by simpa using hi) (by simpa using ho)
        | zero =>
          refine ⟨?_, ?_, ?_⟩
          · intro hnone
            simp only [List.get] at hnone ⊢
            rw [hnone] at hpc
            have hpc0 : pc = 0 := by
              simpa [enhancePC] using hpc.symm
            subst hpc0
            constructor
            · rfl
            · show some (if (0 : ℚ) > 0 then "UP" else "DOWN") = some "DOWN"
              norm_num
          · intro v q hv hq
            simp only [List.get] at hv ⊢
            rw [hv] at hpc
            rw [enhancePC_toFloat hq] at hpc
            injection hpc with hpcq
            show some pc = some q
            rw [hpcq]
          · intro q hq
            simp only [List.get] at hq ⊢
            have hpcq : pc = q := by
              simpa using hq
            subst hpcq
            show some (if pc > 0 then "UP" else "DOWN") = some "UP" ↔ 0 < pc
            by_cases hqpos : 0 < pc
            · simp [hqpos]
            · simp [gt_iff_lt, hqpos]

def rawNum : RawRecord :=
  { id := some "btc", price_change_percentage_24h := some (.num 5) }

def rawAbsent : RawRecord :=
  { id := some "eth" }

def enhancedWitnessOut : List EnhancedRecord :=
  [{ toRawRecord := rawNum, date := some "d",
     price_change_24h := some 5, change_symbol := some "UP" },
   { toRawRecord := rawAbsent, date := some "d",
     price_change_24h := some 0, change_symbol := some "DOWN" }]

theorem enhancer_change_fields_witness :
    add_enhanced_columns "d" [rawNum, rawAbsent] = .ok enhancedWitnessOut
    ∧ enhancedWitnessOut.length = [rawNum, rawAbsent].length :=
  ⟨rfl,
   (enhancer_change_fields "d" [rawNum, rawAbsent] enhancedWitnessOut rfl).1⟩

/-! ## C6 — behaviour on present-but-unparseable percentage values -/

def rawEmptyStr : RawRecord :=
  { id := some "btc", price_change_percentage_24h := some (.str "") }

def rawBadStr : RawRecord :=
  { id := some "eth", price_change_percentage_24h := some (.str "abc") }

/-- C6 evaluated on the code: a present but unparseable percentage value
is *not* reported through a `DataFormatError` naming the record.  The
empty string — present and unparseable by `float` — is falsy, so the
code silently defaults it to `0.0`/`"DOWN"` and the batch succeeds; a
truthy unparseable string aborts the batch with Python's bare
`ValueError` (modelled by `Except.error` carrying only the offending
string), which names neither the record `id` nor the field. -/
theorem enhancer_malformed_behaviour :
    add_enhanced_columns "d" [rawEmptyStr]
      = .ok [{ toRawRecord := rawEmptyStr, date := some "d",
               price_change_24h := some 0, change_symbol := some "DOWN" }]
    ∧ add_enhanced_columns "d" [rawBadStr] = .error "abc" :=
  ⟨rfl, rfl⟩

/-! ## C3 — top gainers and losers -/

theorem mem_assignGainerRanks {r : NormalizedRecord} :
    ∀ {n : ℕ} {l : List NormalizedRecord}, r ∈ assignGainerRanks n l →
      ∃ c ∈ l, ∃ m, r = { c with gainer_rank := some m } := by
  intro n l
  induction l generalizing n with
  | nil => intro h; exact absurd h (by simp [assignGainerRanks])
  | cons c rest ih =>
    intro h
    rcases List.mem_cons.mp h with h0 | h1
    · exact ⟨c, List.mem_cons_self c rest, n, h0⟩
    · obtain ⟨c', hc', m, hm⟩ := ih h1
      exact ⟨c', List.mem_cons_of_mem c hc', m, hm⟩

theorem mem_assignLoserRanks {r : NormalizedRecord} :
    ∀ {n : ℕ} {l : List NormalizedRecord}, r ∈ assignLoserRanks n l →
      ∃ c ∈ l, ∃ m, r = { c with loser_rank := some m } := by
  intro n l
  induction l generalizing n with
  | nil => intro h; exact absurd h (by simp [assignLoserRanks])
  | cons c rest ih =>
    intro h
    rcases List.mem_cons.mp h with h0 | h1
    · exact ⟨c, List.mem_cons_self c rest, n, h0⟩
    · obtain ⟨c', hc', m, hm⟩ := ih h1
      exact ⟨c', List.mem_cons_of_mem c hc', m, hm⟩

theorem assignGainerRanks_map_rank (n : ℕ) (l : List NormalizedRecord) :
    (assignGainerRanks n l).map (fun c => c.gainer_rank)
      = (List.range' n l.length).map some := by
  induction l generalizing n with
  | nil => rfl
  | cons c rest ih =>
    simp only [assignGainerRanks, List.map, List.length_cons, List.range']
    rw [ih]

theorem assignLoserRanks_map_rank (n : ℕ) (l : List NormalizedRecord) :
    (assignLoserRanks n l).map (fun c => c.loser_rank)
      = (List.range' n l.length).map some := by
  induction l generalizing n with
  | nil => rfl
  | cons c rest ih =>
    simp only [assignLoserRanks, List.map, List.length_cons, List.range']
    rw [ih]

theorem filter_map_stripGainerRank (p : ℚ → Bool)
    (l : List NormalizedRecord) :
    (l.map stripGainerRank).filter (fun c => p c.price_change_24h)
      = (l.filter (fun c => p c.price_change_24h)).map stripGainerRank := by
  induction l with
  | nil => rfl
  | cons c rest ih =>
    simp only [List.map, List.filter]
    cases hp : p c.price_change_24h <;> simp [stripGainerRank, hp, ih]

theorem filter_map_stripLoserRank (p : ℚ → Bool)
    (l : List NormalizedRecord) :
    (l.map stripLoserRank).filter (fun c => p c.price_change_24h)
      = (l.filter (fun c => p c.price_change_24h)).map stripLoserRank := by
  induction l with
  | nil => rfl
  | cons c rest ih =>
    simp only [List.map, List.filter]
    cases hp : p c.price_change_24h <;> simp [stripLoserRank, hp, ih]

theorem gainKey_eq_iff (a : NormalizedRecord) (q : ℚ) :
    (a.price_change_24h == q) = true ↔ gainKey a = OrderDual.toDual q := by
  rw [beq_iff_eq]
  exact (OrderDual.toDual_inj).symm

theorem loseKey_eq_iff (a : NormalizedRecord) (q : ℚ) :
    (a.price_change_24h == q) = true ↔ loseKey a = q := by
  rw [beq_iff_eq]
  exact Iff.rfl

/-- C3: for every normalized input and every limit `L`, the gainers list
holds only records with positive 24h change, is sorted descending on
that field, has length `min L (number of qualifying records)` (so all of
them when fewer than `L` qualify, possibly none), preserves — per change
value — exactly the qualifying records in their input order (stability,
stated modulo the `gainer_rank` key the call writes), and carries dense
ranks `1..k`; symmetrically for the losers list with negative change and
ascending order. -/
theorem ranker_top_gainers_losers (data : List NormalizedRecord) (L : ℕ) :
    ((∀ r ∈ get_top_gainers data L, 0 < r.price_change_24h)
      ∧ ((get_top_gainers data L).map
          (fun c => c.price_change_24h)).Sorted (· ≥ ·)
      ∧ (get_top_gainers data L).length
          = min L (data.filter (fun c => 0 < c.price_change_24h)).length
      ∧ (∀ q : ℚ, ∃ k,
          ((get_top_gainers data L).map stripGainerRank).filter
              (fun c => c.price_change_24h == q)
            = (((data.filter (fun c => 0 < c.price_change_24h)).map
                  stripGainerRank).filter
                (fun c => c.price_change_24h == q)).take k)
      ∧ (get_top_gainers data L).map (fun c => c.gainer_rank)
          = (List.range' 1 (get_top_gainers data L).length).map some)
    ∧ ((∀ r ∈ get_top_losers data L, r.price_change_24h < 0)
      ∧ ((get_top_losers data L).map
          (fun c => c.price_change_24h)).Sorted (· ≤ ·)
      ∧ (get_top_losers data L).length
          = min L (data.filter (fun c => c.price_change_24h < 0)).length
      ∧ (∀ q : ℚ, ∃ k,
          ((get_top_losers data L).map stripLoserRank).filter
              (fun c => c.price_change_24h == q)
            = (((data.filter (fun c => c.price_change_24h < 0)).map
                  stripLoserRank).filter
                (fun c => c.price_change_24h == q)).take k)
      ∧ (get_top_losers data L).map (fun c => c.loser_rank)
          = (List.range' 1 (get_top_losers data L).length).map some) := by
  constructor
  · refine ⟨?_, ?_, ?_, ?_, ?_⟩
    · intro r hr
      obtain ⟨c, hc, m, rfl⟩ := mem_assignGainerRanks hr
      have hc2 : c ∈ data.filter (fun c => 0 < c.price_change_24h) :=
        (mem_sortByKey gainKey _ c).mp (List.take_subset L _ hc)
      have := (List.mem_filter.mp hc2).2
      simpa using this
    · rw [get_top_gainers, map_pc_assignGainerRanks]
      refine (List.pairwise_map).mpr ?_
      exact List.Pairwise.sublist (List.take_sublist L _)
        (sortByKey_sorted gainKey _)
    · rw [get_top_gainers, assignGainerRanks_length, List.length_take,
        sortByKey_length]
    · intro q
      obtain ⟨k, hk⟩ := filter_take
        (fun c : NormalizedRecord => c.price_change_24h == q) L
        (sortByKey gainKey (data.filter (fun c => 0 < c.price_change_24h)))
      rw [filter_sortByKey gainKey (OrderDual.toDual q)
        (fun c => c.price_change_24h == q) (fun a => gainKey_eq_iff a q)]
        at hk
      refine ⟨k, ?_⟩
      rw [get_top_gainers, map_stripGainerRank_assignGainerRanks,
        filter_map_stripGainerRank (fun x => x == q),
        filter_map_stripGainerRank (fun x => x == q),
        ← List.map_take, hk]
    · rw [get_top_gainers, assignGainerRanks_map_rank,
        assignGainerRanks_length]
  · refine ⟨?_, ?_, ?_, ?_, ?_⟩
    · intro r hr
      obtain ⟨c, hc, m, rfl⟩ := mem_assignLoserRanks hr
      have hc2 : c ∈ data.filter (fun c => c.price_change_24h < 0) :=
        (mem_sortByKey loseKey _ c).mp (List.take_subset L _ hc)
      have := (List.mem_filter.mp hc2).2
      simpa using this
    · rw [get_top_losers, map_pc_assignLoserRanks]
      refine (List.pairwise_map).mpr ?_
      exact List.Pairwise.sublist (List.take_sublist L _)
        (sortByKey_sorted loseKey _)
    · rw [get_top_losers, assignLoserRanks_length, List.length_take,
        sortByKey_length]
    · intro q
      obtain ⟨k, hk⟩ := filter_take
        (fun c : NormalizedRecord => c.price_change_24h == q) L
        (sortByKey loseKey (data.filter (fun c => c.price_change_24h < 0)))
      rw [filter_sortByKey loseKey q
        (fun c => c.price_change_24h == q) (fun a => loseKey_eq_iff a q)]
        at hk
      refine ⟨k, ?_⟩
      rw [get_top_losers, map_stripLoserRank_assignLoserRanks,
        filter_map_stripLoserRank (fun x => x == q),
        filter_map_stripLoserRank (fun x => x == q),
        ← List.map_take, hk]
    · rw [get_top_losers, assignLoserRanks_map_rank,
        assignLoserRanks_length]

/-- A normalized record with every field at its blank default, used to
build concrete test records. -/
def baseN : NormalizedRecord :=
  { id := "", rank := none, name := "", symbol := "", current_price := none,
    price_change_24h := 0, change_symbol := "DOWN", market_cap := none,
    volume_24h := none, ath := none, image := "", date := "",
    last_updated := "" }

def wGain : NormalizedRecord :=
  { baseN with id := "gain", price_change_24h := 5, change_symbol := "UP" }

def wTie : NormalizedRecord :=
  { baseN with id := "gain2", price_change_24h := 5, change_symbol := "UP" }

def wLose : NormalizedRecord :=
  { baseN with id := "lose", price_change_24h := -2 }

theorem ranker_top_gainers_losers_witness :
    ({ wGain with gainer_rank := some 1 }
        ∈ get_top_gainers [wGain, wLose] 10)
    ∧ 0 < ({ wGain with gainer_rank := some 1 }
        : NormalizedRecord).price_change_24h :=
  ⟨by decide,
   (ranker_top_gainers_losers [wGain, wLose] 10).1.1 _ (by decide)⟩

/-! ## C4 — the three counts partition the input -/

theorem count_partition (l : List NormalizedRecord) :
    (l.filter (fun c => 0 < c.price_change_24h)).length
      + (l.filter (fun c => c.price_change_24h < 0)).length
      + (l.filter (fun c => c.price_change_24h = 0)).length
      = l.length := by
  induction l with
  | nil => rfl
  | cons c rest ih =>
    simp only [List.filter_cons, List.length_cons]
    rcases lt_trichotomy c.price_change_24h 0 with h | h | h
    · rw [if_neg (by simpa using not_lt_of_gt h),
        if_pos (by simpa using h), if_neg (by simpa using ne_of_lt h)]
      simp only [List.length_cons]
      omega
    · rw [if_neg (by simp [h]), if_neg (by simp [h]),
        if_pos (by simpa using h)]
      simp only [List.length_cons]
      omega
    · rw [if_pos (by simpa using h),
        if_neg (by simpa using not_lt_of_gt h),
        if_neg (by simpa using (ne_of_gt h))]
      simp only [List.length_cons]
      omega

/-- C4: whenever the summarizer produces a summary (that is, on every
nonempty input — the empty input produces the empty dict), the three
counts are the sizes of the strict `> 0` / `< 0` / `== 0` partition of
the input, `total_coins` is the input length, and the counts add up to
`total_coins`. -/
theorem summary_counts (data : List NormalizedRecord) (s : MarketSummary)
    (h : generate_market_summary data = some s) :
    s.total_coins = data.length
    ∧ s.gainers_count
        = (data.filter (fun c => 0 < c.price_change_24h)).length
    ∧ s.losers_count
        = (data.filter (fun c => c.price_change_24h < 0)).length
    ∧ s.neutral_count
        = (data.filter (fun c => c.price_change_24h = 0)).length
    ∧ s.gainers_count + s.losers_count + s.neutral_count
        = s.total_coins := by
  cases data with
  | nil => exact absurd h (by simp [generate_market_summary])
  | cons c rest =>
    simp only [generate_market_summary] at h
    injection h with h2
    subst h2
    exact ⟨rfl, rfl, rfl, rfl, count_partition (c :: rest)⟩

def blankSummary : MarketSummary :=
  { total_coins := 0, gainers_count := 0, losers_count := 0,
    neutral_count := 0, gainers_percentage := 0, losers_percentage := 0,
    top_gainer := baseN, top_loser := baseN }

/-- The summary the code computes on the one-record input `[wGain]`. -/
def wSummary : MarketSummary :=
  (generate_market_summary [wGain]).getD blankSummary

theorem summary_counts_witness :
    generate_market_summary [wGain] = some wSummary
    ∧ wSummary.gainers_count + wSummary.losers_count
        + wSummary.neutral_count = wSummary.total_coins :=
  ⟨rfl, (summary_counts [wGain] wSummary rfl).2.2.2.2⟩

/-! ## C5 — top gainer and loser: first-seen extremum wins -/

theorem pyMaxBy_spec (f : NormalizedRecord → ℚ) :
    ∀ (t : List NormalizedRecord) (h : NormalizedRecord),
      (∀ x ∈ h :: t, f x ≤ f (pyMaxBy f h t))
      ∧ ∃ l₁ l₂, h :: t = l₁ ++ pyMaxBy f h t :: l₂
          ∧ ∀ x ∈ l₁, f x < f (pyMaxBy f h t) := by
  intro t
  induction t with
  | nil =>
    intro h
    refine ⟨?_, [], [], rfl, by simp⟩
    intro x hx
    rw [List.mem_singleton] at hx
    subst hx
    exact le_refl _
  | cons y t ih =>
    intro h
    by_cases hc : f y > f h
    · have hstep : pyMaxBy f h (y :: t) = pyMaxBy f y t := by
        simp [pyMaxBy, List.foldl, hc]
      obtain ⟨hb, l₁, l₂, heq, hlt⟩ := ih y
      rw [hstep]
      constructor
      · intro x hx
        rcases List.mem_cons.mp hx with rfl | hx2
        · exact le_trans (le_of_lt hc) (hb y (List.mem_cons_self y t))
        · exact hb x hx2
      · cases l₁ with
        | nil =>
          rw [List.nil_append] at heq
          injection heq with hm hl
          refine ⟨[h], l₂, ?_, ?_⟩
          · rw [List.singleton_append, ← hm, ← hl]
          · intro x hx
            rw [List.mem_singleton] at hx
            subst hx
            rw [← hm]
            exact hc
        | cons z l₁ =>
          injection heq with hz ht2
          have hym : f y < f (pyMaxBy f y t) := by
            have := hlt z (List.mem_cons_self z l₁)
            rw [← hz] at this
            exact this
          refine ⟨h :: y :: l₁, l₂, ?_, ?_⟩
          · conv_lhs => rw [ht2]
            rfl
          · intro x hx
            rcases List.mem_cons.mp hx with rfl | hx2
            · exact lt_trans hc hym
            · rcases List.mem_cons.mp hx2 with rfl | hx3
              · exact hym
              · exact hlt x (List.mem_cons_of_mem z hx3)
    · have hstep : pyMaxBy f h (y :: t) = pyMaxBy f h t := by
        simp [pyMaxBy, List.foldl, hc]
      obtain ⟨hb, l₁, l₂, heq, hlt⟩ := ih h
      rw [hstep]
      have hyh : f y ≤ f h := not_lt.mp hc
      constructor
      · intro x hx
        rcases List.mem_cons.mp hx with rfl | hx2
        · exact hb x (List.mem_cons_self x t)
        · rcases List.mem_cons.mp hx2 with rfl | hx3
          · exact le_trans hyh (hb h (List.mem_cons_self h t))
          · exact hb x (List.mem_cons_of_mem h hx3)
      · cases l₁ with
        | nil =>
          rw [List.nil_append] at heq
          injection heq with hm hl
          refine ⟨[], y :: t, ?_, by simp⟩
          rw [List.nil_append, ← hm]
        | cons z l₁ =>
          injection heq with hz ht2
          have hhm : f h < f (pyMaxBy f h t) := by
            have := hlt z (List.mem_cons_self z l₁)
            rw [← hz] at this
            exact this
          refine ⟨h :: y :: l₁, l₂, ?_, ?_⟩
          · conv_lhs => rw [ht2]
            rfl
          · intro x hx
            rcases List.mem_cons.mp hx with rfl | hx2
            · exact hhm
            · rcases List.mem_cons.mp hx2 with rfl | hx3
              · exact lt_of_le_of_lt hyh hhm
              · exact hlt x (List.mem_cons_of_mem z hx3)

theorem pyMinBy_spec (f : NormalizedRecord → ℚ) :
    ∀ (t : List NormalizedRecord) (h : NormalizedRecord),
      (∀ x ∈ h :: t, f (pyMinBy f h t) ≤ f x)
      ∧ ∃ l₁ l₂, h :: t = l₁ ++ pyMinBy f h t :: l₂
          ∧ ∀ x ∈ l₁, f (pyMinBy f h t) < f x := by
  intro t
  induction t with
  | nil =>
    intro h
    refine ⟨?_, [], [], rfl, by simp⟩
    intro x hx
    rw [List.mem_singleton] at hx
    subst hx
    exact le_refl _
  | cons y t ih =>
    intro h
    by_cases hc : f y < f h
    · have hstep : pyMinBy f h (y :: t) = pyMinBy f y t := by
        simp [pyMinBy, List.foldl, hc]
      obtain ⟨hb, l₁, l₂, heq, hlt⟩ := ih y
      rw [hstep]
      constructor
      · intro x hx
        rcases List.mem_cons.mp hx with rfl | hx2
        · exact le_trans (hb y (List.mem_cons_self y t)) (le_of_lt hc)
        · exact hb x hx2
      · cases l₁ with
        | nil =>
          rw [List.nil_append] at heq
          injection heq with hm hl
          refine ⟨[h], l₂, ?_, ?_⟩
          · rw [List.singleton_append, ← hm, ← hl]
          · intro x hx
            rw [List.mem_singleton] at hx
            subst hx
            rw [← hm]
            exact hc
        | cons z l₁ =>
          injection heq with hz ht2
          have hym : f (pyMinBy f y t) < f y := by
            have := hlt z (List.mem_cons_self z l₁)
            rw [← hz] at this
            exact this
          refine ⟨h :: y :: l₁, l₂, ?_, ?_⟩
          · conv_lhs => rw [ht2]
            rfl
          · intro x hx
            rcases List.mem_cons.mp hx with rfl | hx2
            · exact lt_trans hym hc
            · rcases List.mem_cons.mp hx2 with rfl | hx3
              · exact hym
              · exact hlt x (List.mem_cons_of_mem z hx3)
    · have hstep : pyMinBy f h (y :: t) = pyMinBy f h t := by
        simp [pyMinBy, List.foldl, hc]
      obtain ⟨hb, l₁, l₂, heq, hlt⟩ := ih h
      rw [hstep]
      have hyh : f h ≤ f y := not_lt.mp hc
      constructor
      · intro x hx
        rcases List.mem_cons.mp hx with rfl | hx2
        · exact hb x (List.mem_cons_self x t)
        · rcases List.mem_cons.mp hx2 with rfl | hx3
          · exact le_trans (hb h (List.mem_cons_self h t)) hyh
          · exact hb x (List.mem_cons_of_mem h hx3)
      · cases l₁ with
        | nil =>
          rw [List.nil_append] at heq
          injection heq with hm hl
          refine ⟨[], y :: t, ?_, by simp⟩
          rw [List.nil_append, ← hm]
        | cons z l₁ =>
          injection heq with hz ht2
          have hhm : f (pyMinBy f h t) < f h := by
            have := hlt z (List.mem_cons_self z l₁)
            rw [← hz] at this
            exact this
          refine ⟨h :: y :: l₁, l₂, ?_, ?_⟩
          · conv_lhs => rw [ht2]
            rfl
          · intro x hx
            rcases List.mem_cons.mp hx with rfl | hx2
            · exact hhm
            · rcases List.mem_cons.mp hx2 with rfl | hx3
              · exact lt_of_lt_of_le hhm hyh
              · exact hlt x (List.mem_cons_of_mem z hx3)

/-- C5: on every nonempty input (exactly the inputs for which a summary
is produced), `top_gainer` attains the maximum of `price_change_24h`,
`top_loser` the minimum, and each is the *earliest* record attaining its
extremum: the input splits as `l₁ ++ extremum :: l₂` with every record
of the prefix `l₁` strictly less extreme (so among tied records the
first in normalized order wins). -/
theorem summary_top_extremes (data : List NormalizedRecord)
    (s : MarketSummary) (h : generate_market_summary data = some s) :
    ((∀ r ∈ data, r.price_change_24h ≤ s.top_gainer.price_change_24h)
      ∧ ∃ l₁ l₂, data = l₁ ++ s.top_gainer :: l₂
          ∧ ∀ r ∈ l₁,
              r.price_change_24h < s.top_gainer.price_change_24h)
    ∧ ((∀ r ∈ data, s.top_loser.price_change_24h ≤ r.price_change_24h)
      ∧ ∃ l₁ l₂, data = l₁ ++ s.top_loser :: l₂
          ∧ ∀ r ∈ l₁,
              s.top_loser.price_change_24h < r.price_change_24h) := by
  cases data with
  | nil => exact absurd h (by simp [generate_market_summary])
  | cons c rest =>
    simp only [generate_market_summary] at h
    injection h with h2
    subst h2
    exact ⟨pyMaxBy_spec (fun x => x.price_change_24h) rest c,
      pyMinBy_spec (fun x => x.price_change_24h) rest c⟩

/-- The summary the code computes on `[wGain, wTie]`, two records tied
at `+5`. -/
def wTieSummary : MarketSummary :=
  (generate_market_summary [wGain, wTie]).getD blankSummary

theorem summary_top_extremes_witness :
    generate_market_summary [wGain, wTie] = some wTieSummary
    ∧ wTie.price_change_24h ≤ wTieSummary.top_gainer.price_change_24h
    ∧ wTieSummary.top_gainer = wGain
    ∧ wTieSummary.top_loser = wGain :=
  ⟨rfl,
   (summary_top_extremes [wGain, wTie] wTieSummary rfl).1.1 wTie
     (by decide),
   by decide, by decide⟩

/-! ## C7 — empty input -/

/-- C7 fails as stated: on empty input the summarizer does not return a
summary whose percentage fields are `0` — it returns the empty dict
(line 19 of src/utils/analyzer.py, modelled as `none`), which has no
percentage fields at all. -/
theorem summary_empty_counterexample :
    ¬ ∃ s : MarketSummary, generate_market_summary [] = some s
        ∧ s.gainers_percentage = 0 ∧ s.losers_percentage = 0 := by
  rintro ⟨s, hs, -, -⟩
  exact absurd hs (by simp [generate_market_summary])

/-- C7 (amended): on empty input the summarizer returns the empty dict
(no summary, hence no percentage fields) without ever reaching the
divisions by `total_coins` — the `if not data` guard returns first, so
no division by zero occurs; on every nonempty input a full summary is
produced. -/
theorem summary_empty_amended :
    generate_market_summary [] = none
    ∧ ∀ data : List NormalizedRecord, data ≠ [] →
        (generate_market_summary data).isSome = true := by
  refine ⟨rfl, ?_⟩
  intro data hne
  cases data with
  | nil => exact absurd rfl hne
  | cons c rest => simp [generate_market_summary]

theorem summary_empty_amended_witness :
    ([wGain] : List NormalizedRecord) ≠ []
    ∧ (generate_market_summary [wGain]).isSome = true :=
  ⟨by simp, summary_empty_amended.2 [wGain] (by simp)⟩

/-! ## C8 — what the ranker does to the shared normalized list -/

/-- C8 fails as stated: `get_top_gainers` writes a `gainer_rank` key
into the selected dicts, which are the very objects of the normalized
list, so after the call the list's record *has changed* (a field was
added). -/
theorem ranker_mutates_counterexample :
    dataAfterGainers [wGain] 10 ≠ [wGain] := by
  decide

theorem dataAfterGainers_strip (data : List NormalizedRecord) (L : ℕ) :
    (dataAfterGainers data L).map stripGainerRank
      = data.map stripGainerRank := by
  unfold dataAfterGainers
  rw [List.map_map]
  have hfun : (stripGainerRank ∘ fun p : ℕ × NormalizedRecord =>
      match (gainersSelection data L).findIdx? (fun q => q.1 == p.1) with
      | some j => { p.2 with gainer_rank := some (j + 1) }
      | none => p.2) = fun p => stripGainerRank p.2 := by
    funext p
    simp only [Function.comp]
    cases hfi : (gainersSelection data L).findIdx? (fun q => q.1 == p.1)
      <;> rfl
  rw [hfun]
  rw [show (fun p : ℕ × NormalizedRecord => stripGainerRank p.2)
    = stripGainerRank ∘ Prod.snd from rfl]
  rw [← List.map_map, List.enum_map_snd]

theorem dataAfterLosers_strip (data : List NormalizedRecord) (L : ℕ) :
    (dataAfterLosers data L).map stripLoserRank
      = data.map stripLoserRank := by
  unfold dataAfterLosers
  rw [List.map_map]
  have hfun : (stripLoserRank ∘ fun p : ℕ × NormalizedRecord =>
      match (losersSelection data L).findIdx? (fun q => q.1 == p.1) with
      | some j => { p.2 with loser_rank := some (j + 1) }
      | none => p.2) = fun p => stripLoserRank p.2 := by
    funext p
    simp only [Function.comp]
    cases hfi : (losersSelection data L).findIdx? (fun q => q.1 == p.1)
      <;> rfl
  rw [hfun]
  rw [show (fun p : ℕ × NormalizedRecord => stripLoserRank p.2)
    = stripLoserRank ∘ Prod.snd from rfl]
  rw [← List.map_map, List.enum_map_snd]

/-- C8 (amended): the ranker keeps the normalized list intact *except*
that it adds `gainer_rank` (respectively `loser_rank`) to the selected
records in place: no record is added or removed (lengths agree) and no
field other than the added rank key changes (stripping that one key
recovers the original list exactly).  The summarizer reads the records
but writes nothing (it only builds a new summary dict). -/
theorem ranker_frame_amended (data : List NormalizedRecord) (L : ℕ) :
    (dataAfterGainers data L).map stripGainerRank
      = data.map stripGainerRank
    ∧ (dataAfterLosers data L).map stripLoserRank
      = data.map stripLoserRank
    ∧ (dataAfterGainers data L).length = data.length
    ∧ (dataAfterLosers data L).length = data.length := by
  refine ⟨dataAfterGainers_strip data L, dataAfterLosers_strip data L,
    ?_, ?_⟩
  · unfold dataAfterGainers
    rw [List.length_map, List.enum_length]
  · unfold dataAfterLosers
    rw [List.length_map, List.enum_length]

/-! ## C9 — the normalizer is idempotent on its re-projected output -/

theorem charToNat_ofNat {n : ℕ} (h : n.isValidChar) :
    (Char.ofNat n).toNat = n := by
  unfold Char.ofNat
  rw [dif_pos h]
  rfl

theorem charToUpper_idem (c : Char) : c.toUpper.toUpper = c.toUpper := by
  unfold Char.toUpper
  by_cases hc : c.toNat ≥ 97 ∧ c.toNat ≤ 122
  · rw [if_pos hc]
    have hv : (c.toNat - 32).isValidChar := Or.inl (by omega)
    have ht : (Char.ofNat (c.toNat - 32)).toNat = c.toNat - 32 :=
      charToNat_ofNat hv
    rw [if_neg]
    rw [ht]
    omega
  · rw [if_neg hc, if_neg hc]

theorem pyUpper_idem (s : String) : pyUpper (pyUpper s) = pyUpper s := by
  unfold pyUpper
  show String.mk ((s.data.map Char.toUpper).map Char.toUpper)
    = String.mk (s.data.map Char.toUpper)
  have hfn : (Char.toUpper ∘ Char.toUpper) = Char.toUpper :=
    funext fun c => charToUpper_idem c
  rw [List.map_map, hfn]

/-- Feed a normalized record back to the normalizer through the same
field mapping it reads: `rank` goes back under `market_cap_rank`,
`volume_24h` under `total_volume`, and every identically-named field
under its own key (`number` has no source key and is dropped; the
consumed raw percentage field no longer exists). -/
def reproject (r : NormalizedRecord) : EnhancedRecord :=
  { id := some r.id, name := some r.name, symbol := some r.symbol,
    market_cap_rank := r.rank, current_price := r.current_price,
    price_change_percentage_24h := none, market_cap := r.market_cap,
    total_volume := r.volume_24h, ath := r.ath, image := some r.image,
    last_updated := some r.last_updated, date := some r.date,
    price_change_24h := some r.price_change_24h,
    change_symbol := some r.change_symbol }

theorem projectRecord_reproject (r : NormalizedRecord)
    (hs : pyUpper r.symbol = r.symbol) (hg : r.gainer_rank = none)
    (hl : r.loser_rank = none) :
    projectRecord (reproject r) = stripNumber r := by
  cases r
  simp only [projectRecord, reproject, stripNumber, Option.getD] at *
  simp_all [NormalizedRecord.mk.injEq]

theorem mem_assignNumbers {r : NormalizedRecord} :
    ∀ {n : ℕ} {l : List NormalizedRecord}, r ∈ assignNumbers n l →
      ∃ c ∈ l, ∃ m, r = { c with number := m } := by
  intro n l
  induction l generalizing n with
  | nil => intro h; exact absurd h (by simp [assignNumbers])
  | cons c rest ih =>
    intro h
    rcases List.mem_cons.mp h with h0 | h1
    · exact ⟨c, List.mem_cons_self c rest, n, h0⟩
    · obtain ⟨c', hc', m, hm⟩ := ih h1
      exact ⟨c', List.mem_cons_of_mem c hc', m, hm⟩

/-- Every record the normalizer outputs has an idempotently-uppercased
symbol and no ranker keys. -/
theorem process_invariant (data : List EnhancedRecord) :
    ∀ r ∈ process_crypto_data data,
      pyUpper r.symbol = r.symbol ∧ r.gainer_rank = none
        ∧ r.loser_rank = none := by
  intro r hr
  unfold process_crypto_data at hr
  obtain ⟨c, hc, m, rfl⟩ := mem_assignNumbers hr
  rw [mem_sortByKey] at hc
  obtain ⟨e, _, rfl⟩ := List.mem_map.mp hc
  refine ⟨?_, rfl, rfl⟩
  show pyUpper (pyUpper (e.symbol.getD "")) = pyUpper (e.symbol.getD "")
  exact pyUpper_idem _

theorem map_eq_map_of_mem {α β : Type} (f g : α → β) :
    ∀ (l : List α), (∀ x ∈ l, f x = g x) → l.map f = l.map g
  | [], _ => rfl
  | x :: xs, h => by
    simp only [List.map]
    rw [h x (List.mem_cons_self x xs),
      map_eq_map_of_mem f g xs
        (fun y hy => h y (List.mem_cons_of_mem x hy))]

/-- C9: re-projecting the normalizer's output through the same field
mapping and normalizing again reproduces the output exactly — the
projection defaults hit already-present values, uppercasing is
idempotent, the stable sort leaves the already-sorted list unchanged,
and the numbers are re-assigned identically. -/
theorem normalizer_idempotent (data : List EnhancedRecord) :
    process_crypto_data ((process_crypto_data data).map reproject)
      = process_crypto_data data := by
  have h1 : ((process_crypto_data data).map reproject).map projectRecord
      = (process_crypto_data data).map stripNumber := by
    rw [List.map_map]
    exact map_eq_map_of_mem _ _ _ (fun r hr => by
      obtain ⟨hs, hg, hl⟩ := process_invariant data r hr
      exact projectRecord_reproject r hs hg hl)
  show assignNumbers 1 (sortByKey rankKey
      (((process_crypto_data data).map reproject).map projectRecord))
    = process_crypto_data data
  rw [h1, process_strip_eq]
  rw [show sortByKey rankKey
      (sortByKey rankKey (data.map projectRecord))
      = sortByKey rankKey (data.map projectRecord) from
    List.Sorted.insertionSort_eq (sortByKey_sorted rankKey _)]
  rfl
